import Mathlib

/-!
Shallow embedding of the `str_windows` crate (src/lib.rs).

A UTF-8 string slice is modelled as the list of its Unicode scalar values
(`List Nat`); byte positions are recovered through `utf8Width`, the number
of UTF-8 code units of one scalar value.  Rust byte slicing
(the expressions s[..i] and s[i..]), which panics when `i` is out of
bounds or not a character boundary, is modelled by `takeBytes?` and
`dropBytes?` returning `none` exactly on those inputs; a panic inside
`next` is the `Except.error` branch.
-/

namespace StrWindows

/-- Number of bytes of the UTF-8 encoding of the scalar value `c`
(1 below U+0080, 2 below U+0800, 3 below U+10000, else 4). -/
def utf8Width (c : Nat) : Nat :=
  if c < 128 then 1 else if c < 2048 then 2 else if c < 65536 then 3 else 4

/-- A Unicode scalar value: a code point that is not a surrogate. -/
def ValidScalar (c : Nat) : Prop :=
  c < 1114112 ∧ ¬(55296 ≤ c ∧ c < 57344)

instance : DecidablePred ValidScalar := fun c => by
  unfold ValidScalar; infer_instance

/-- A valid UTF-8 string, given as the list of its scalar values. -/
def ValidStr (s : List Nat) : Prop := ∀ c ∈ s, ValidScalar c

instance : ∀ s, Decidable (ValidStr s) := fun s => by
  unfold ValidStr; infer_instance

/-- Byte length (`str::len`) of the string with scalar values `s`. -/
def utf8Len (s : List Nat) : Nat := (s.map utf8Width).sum

/-- Rust byte slicing `s[..n]`: the scalar values of the first `n` bytes.
`none` models the panic when `n` is past the end or not a char boundary. -/
def takeBytes? : List Nat → Nat → Option (List Nat)
  | _, 0 => some []
  | [], _ + 1 => none
  | c :: s, n + 1 =>
    if utf8Width c ≤ n + 1 then (takeBytes? s (n + 1 - utf8Width c)).map (c :: ·)
    else none

/-- Rust byte slicing `s[n..]`: the scalar values after the first `n` bytes.
`none` models the panic when `n` is past the end or not a char boundary. -/
def dropBytes? : List Nat → Nat → Option (List Nat)
  | s, 0 => some s
  | [], _ + 1 => none
  | c :: s, n + 1 =>
    if utf8Width c ≤ n + 1 then dropBytes? s (n + 1 - utf8Width c)
    else none

/-- `next_indice` from src/lib.rs: it scans byte positions `1..=s.len()` and
returns the first char boundary.  On valid UTF-8 the first boundary after 0
is the byte width of the first scalar value; on the empty string the loop
body never runs and the function falls through to `return 1`. -/
def next_indice (s : List Nat) : Nat :=
  match s with
  | [] => 1
  | c :: _ => utf8Width c

/-- `nth_indice` from src/lib.rs: `s.char_indices().nth(n)` gives the byte
offset of scalar value number `n` (0-based) and `unwrap_or(s.len())` gives
the byte length when fewer than `n + 1` scalar values exist; both equal the
byte length of the first `n` scalar values. -/
def nth_indice (s : List Nat) (n : Nat) : Nat := utf8Len (s.take n)

/-- The `StrWindowsIter` struct from src/lib.rs.  The Rust field `end` is a
Lean keyword and is rendered `end_`. -/
structure StrWindowsIter where
  inner : List Nat
  end_ : Nat
  size : Nat
  deriving DecidableEq, Repr

/-- `str_windows` from src/lib.rs. -/
def str_windows (input : List Nat) (size : Nat) : StrWindowsIter :=
  { inner := input, end_ := nth_indice input size, size := size }

/-- `StrWindowsIter::next` from src/lib.rs.  `Except.error ()` models a
panic (an out-of-bounds or non-boundary byte slice).  The two `usize`
updates `self.end += next_indice(..)` and `self.end -= skip_len` are the
single natural-number expression `end_ + next_indice .. - skip_len`; on
every state reachable from `str_windows` the subtraction never underflows. -/
def StrWindowsIter.next (it : StrWindowsIter) :
    Except Unit (Option (List Nat) × StrWindowsIter) :=
  if it.size = 0 then .ok (some [], it)
  else if it.end_ > utf8Len it.inner then .ok (none, it)
  else
    match takeBytes? it.inner it.end_ with
    | none => .error ()
    | some window =>
      let skip_len := next_indice it.inner
      match dropBytes? it.inner it.end_ with
      | none => .error ()
      | some afterEnd =>
        let newEnd := it.end_ + next_indice afterEnd - skip_len
        match dropBytes? it.inner skip_len with
        | none => .error ()
        | some newInner => .ok (some window, ⟨newInner, newEnd, it.size⟩)

/-- `usize::MAX` on a 64-bit target. -/
def usizeMax : Nat := 2 ^ 64 - 1

/-- `Chars::size_hint` from Rust core (`core/src/str/iter.rs`): for a slice
of byte length `len` it returns `((len + 3) / 4, Some(len))`. -/
def chars_size_hint (s : List Nat) : Nat × Option Nat :=
  ((utf8Len s + 3) / 4, some (utf8Len s))

/-- `StrWindowsIter::size_hint` from src/lib.rs.  `checked_sub(size - 1)`
followed by `unwrap_or(0)` is truncated natural subtraction. -/
def StrWindowsIter.size_hint (it : StrWindowsIter) : Nat × Option Nat :=
  if it.size = 0 then (usizeMax, none)
  else
    let mm := chars_size_hint it.inner
    (mm.1 - (it.size - 1), mm.2.map (· - (it.size - 1)))

/-- `iterate it k` is the result of call number `k` (0-based) in a run of
repeated `next` calls starting from `it`: the value returned by that call
together with the state after it, or `error` if some call up to `k`
panicked. -/
def iterate : StrWindowsIter → Nat → Except Unit (Option (List Nat) × StrWindowsIter)
  | it, 0 => it.next
  | it, n + 1 =>
    match it.next with
    | .error e => .error e
    | .ok (_, it') => iterate it' n

-- Sanity checks against the crate's doc example "s 😀😁" with size 3
-- (scalar values [115, 32, 128512, 128513], widths [1, 1, 4, 4]).
example : iterate (str_windows [115, 32, 128512, 128513] 3) 0 =
    .ok (some [115, 32, 128512], ⟨[32, 128512, 128513], 9, 3⟩) := rfl
example : iterate (str_windows [115, 32, 128512, 128513] 3) 1 =
    .ok (some [32, 128512, 128513], ⟨[128512, 128513], 9, 3⟩) := rfl
example : iterate (str_windows [115, 32, 128512, 128513] 3) 2 =
    .ok (none, ⟨[128512, 128513], 9, 3⟩) := rfl

/-! ### Byte-length arithmetic -/

theorem utf8Width_pos (c : Nat) : 0 < utf8Width c := by
  unfold utf8Width; split <;> [skip; split] <;> [omega; skip; split] <;> omega

theorem utf8Width_le_four (c : Nat) : utf8Width c ≤ 4 := by
  unfold utf8Width; split <;> [skip; split] <;> [omega; skip; split] <;> omega

theorem utf8Len_nil : utf8Len [] = 0 := rfl

theorem utf8Len_cons (c : Nat) (s : List Nat) :
    utf8Len (c :: s) = utf8Width c + utf8Len s := by
  simp [utf8Len]

theorem utf8Len_append (a b : List Nat) :
    utf8Len (a ++ b) = utf8Len a + utf8Len b := by
  simp [utf8Len]

theorem length_le_utf8Len (s : List Nat) : s.length ≤ utf8Len s := by
  induction s with
  | nil => simp [utf8Len]
  | cons c s ih => have := utf8Width_pos c; rw [utf8Len_cons]; simp; omega

theorem utf8Len_le_four_mul (s : List Nat) : utf8Len s ≤ 4 * s.length := by
  induction s with
  | nil => simp [utf8Len]
  | cons c s ih => have := utf8Width_le_four c; rw [utf8Len_cons]; simp; omega

theorem utf8Len_take_le (s : List Nat) (n : Nat) :
    utf8Len (s.take n) ≤ utf8Len s := by
  conv_rhs => rw [← List.take_append_drop n s]
  rw [utf8Len_append]
  exact Nat.le_add_right ..

theorem utf8Len_take_succ (s : List Nat) (n : Nat) (h : n < s.length) :
    utf8Len (s.take (n + 1)) = utf8Len (s.take n) + utf8Width s[n] := by
  rw [List.take_succ, utf8Len_append, List.getElem?_eq_getElem h]
  simp [utf8Len]

/-! ### Byte slicing at character boundaries -/

theorem takeBytes?_cons (c : Nat) (s : List Nat) (n : Nat) (h : 0 < n) :
    takeBytes? (c :: s) n =
      if utf8Width c ≤ n then (takeBytes? s (n - utf8Width c)).map (c :: ·)
      else none := by
  obtain ⟨m, rfl⟩ : ∃ m, n = m + 1 := ⟨n - 1, by omega⟩
  rfl

theorem dropBytes?_cons (c : Nat) (s : List Nat) (n : Nat) (h : 0 < n) :
    dropBytes? (c :: s) n =
      if utf8Width c ≤ n then dropBytes? s (n - utf8Width c)
      else none := by
  obtain ⟨m, rfl⟩ : ∃ m, n = m + 1 := ⟨n - 1, by omega⟩
  rfl

theorem takeBytes?_append (a b : List Nat) :
    takeBytes? (a ++ b) (utf8Len a) = some a := by
  induction a generalizing b with
  | nil => simp [utf8Len, takeBytes?]
  | cons c a ih =>
    have hw := utf8Width_pos c
    rw [List.cons_append, utf8Len_cons,
      takeBytes?_cons _ _ _ (by omega), if_pos (by omega)]
    have he : utf8Width c + utf8Len a - utf8Width c = utf8Len a := by omega
    rw [he, ih]
    rfl

theorem dropBytes?_append (a b : List Nat) :
    dropBytes? (a ++ b) (utf8Len a) = some b := by
  induction a generalizing b with
  | nil => simp [utf8Len, dropBytes?]
  | cons c a ih =>
    have hw := utf8Width_pos c
    rw [List.cons_append, utf8Len_cons,
      dropBytes?_cons _ _ _ (by omega), if_pos (by omega)]
    have he : utf8Width c + utf8Len a - utf8Width c = utf8Len a := by omega
    rw [he, ih]

theorem takeBytes?_take (s : List Nat) (n : Nat) :
    takeBytes? s (utf8Len (s.take n)) = some (s.take n) := by
  have h := takeBytes?_append (s.take n) (s.drop n)
  rwa [List.take_append_drop] at h

theorem dropBytes?_take (s : List Nat) (n : Nat) :
    dropBytes? s (utf8Len (s.take n)) = some (s.drop n) := by
  have h := dropBytes?_append (s.take n) (s.drop n)
  rwa [List.take_append_drop] at h

theorem dropBytes?_width (c : Nat) (s : List Nat) :
    dropBytes? (c :: s) (utf8Width c) = some s := by
  have h := dropBytes?_append [c] s
  simpa [utf8Len] using h

/-! ### Behavior of one `next` call -/

theorem next_exhausted (it : StrWindowsIter) (hs : it.size ≠ 0)
    (h : utf8Len it.inner < it.end_) : it.next = .ok (none, it) := by
  unfold StrWindowsIter.next
  rw [if_neg hs, if_pos h]

/-- One producing call of `next`, before simplification of the new `end_`
offset: the window is the byte slice up to `end_`, and the new state drops
the first scalar value. -/
theorem next_produce (c : Nat) (rest : List Nat) (size : Nat) (hs : size ≠ 0) :
    (str_windows (c :: rest) size).next =
      .ok (some ((c :: rest).take size),
        ⟨rest,
         utf8Len ((c :: rest).take size) + next_indice ((c :: rest).drop size)
           - utf8Width c,
         size⟩) := by
  have hg : ¬ utf8Len (c :: rest) < utf8Len ((c :: rest).take size) :=
    Nat.not_lt.mpr (utf8Len_take_le ..)
  have h1 := takeBytes?_take (c :: rest) size
  have h2 := dropBytes?_take (c :: rest) size
  have h3 : dropBytes? (c :: rest) (next_indice (c :: rest)) = some rest := by
    simpa [next_indice] using dropBytes?_width c rest
  simp only [StrWindowsIter.next, str_windows, nth_indice, hs, if_false,
    gt_iff_lt, hg, h1, h2, h3, next_indice, dropBytes?_width]

/-- Producing call in the regular regime: more than `size` scalar values
remain; the new state is exactly the fresh iterator over the tail. -/
theorem next_produce_regular (c : Nat) (rest : List Nat) (size : Nat)
    (hs : size ≠ 0) (hlen : size < (c :: rest).length) :
    (str_windows (c :: rest) size).next =
      .ok (some ((c :: rest).take size), str_windows rest size) := by
  obtain ⟨s, rfl⟩ : ∃ s, size = s + 1 := ⟨size - 1, by omega⟩
  have hsr : s < rest.length := by simpa using hlen
  rw [next_produce _ _ _ hs]
  have hdrop : (c :: rest).drop (s + 1) = rest[s] :: rest.drop (s + 1) := by
    rw [List.drop_succ_cons, List.drop_eq_getElem_cons hsr]
  have hE : utf8Len ((c :: rest).take (s + 1))
      + next_indice ((c :: rest).drop (s + 1)) - utf8Width c
      = nth_indice rest (s + 1) := by
    rw [List.take_succ_cons, utf8Len_cons, hdrop]
    show utf8Width c + utf8Len (rest.take s) + utf8Width rest[s] - utf8Width c = _
    simp only [nth_indice]
    rw [utf8Len_take_succ rest s hsr]
    omega
  rw [hE]
  rfl

/-- Producing call when at most `size` scalar values remain (this includes
the out-of-range regime `length < size`): the whole remaining view is
returned and the new `end_` lies one byte past the new view. -/
theorem next_produce_last (c : Nat) (rest : List Nat) (size : Nat)
    (hs : size ≠ 0) (hlen : (c :: rest).length ≤ size) :
    (str_windows (c :: rest) size).next =
      .ok (some (c :: rest), ⟨rest, utf8Len rest + 1, size⟩) := by
  have htake : (c :: rest).take size = c :: rest := List.take_of_length_le hlen
  have hdrop : (c :: rest).drop size = [] := List.drop_eq_nil_of_le hlen
  rw [next_produce _ _ _ hs, htake, hdrop]
  have hE : utf8Len (c :: rest) + next_indice [] - utf8Width c
      = utf8Len rest + 1 := by
    rw [utf8Len_cons]
    show utf8Width c + utf8Len rest + 1 - utf8Width c = _
    omega
  rw [hE]

/-- On the empty string with `size > 0` the very first call panics: the
guard `end > len` is `0 > 0`, so the body runs, and the final slice
`self.inner[skip_len..]` is the out-of-bounds slice of the empty string at
byte 1. -/
theorem next_empty (size : Nat) (hs : size ≠ 0) :
    (str_windows [] size).next = .error () := by
  simp [StrWindowsIter.next, str_windows, nth_indice, hs, utf8Len,
    takeBytes?, dropBytes?, next_indice]

theorem iterate_error (size : Nat) (hs : size ≠ 0) (k : Nat) :
    iterate (str_windows [] size) k = .error () := by
  cases k with
  | zero => exact next_empty size hs
  | succ k => simp only [iterate, next_empty size hs]

/-! ### The full trajectory of an iteration run -/

/-- The cursor state after producing call number `k` on `str_windows T size`. -/
def stateAfter (T : List Nat) (size k : Nat) : StrWindowsIter :=
  if k + size < T.length then str_windows (T.drop (k + 1)) size
  else ⟨T.drop (k + 1), utf8Len (T.drop (k + 1)) + 1, size⟩

theorem stateAfter_cons (c : Nat) (rest : List Nat) (size k : Nat) :
    stateAfter (c :: rest) size (k + 1) = stateAfter rest size k := by
  unfold stateAfter
  by_cases h : k + size < rest.length
  · rw [if_pos (by simp; omega), if_pos h, List.drop_succ_cons]
  · rw [if_neg (by simp; omega), if_neg h, List.drop_succ_cons]

/-- Call number `k` produces the window of `size` scalar values starting at
scalar value `k`, both in the regular regime `k + size ≤ length` and, for
`k = 0`, on any nonempty string (where the window is clipped to the whole
string when `length < size`). -/
theorem iterate_produce (size : Nat) (hs : size ≠ 0) :
    ∀ (k : Nat) (T : List Nat), (k + size ≤ T.length ∨ (k = 0 ∧ T ≠ [])) →
      iterate (str_windows T size) k =
        .ok (some ((T.drop k).take size), stateAfter T size k) := by
  intro k
  induction k with
  | zero =>
    intro T h
    obtain ⟨c, rest, rfl⟩ : ∃ c rest, T = c :: rest := by
      cases T with
      | nil =>
        rcases h with h | ⟨_, h⟩
        · simp at h; omega
        · exact absurd rfl h
      | cons c rest => exact ⟨c, rest, rfl⟩
    show (str_windows (c :: rest) size).next = _
    rcases Nat.lt_or_ge size (c :: rest).length with hlt | hge
    · rw [next_produce_regular c rest size hs hlt,
        stateAfter, if_pos (by omega)]
      simp
    · rw [next_produce_last c rest size hs hge,
        stateAfter, if_neg (by omega)]
      simp [List.take_of_length_le hge]
  | succ k ih =>
    intro T h
    have hk : k + 1 + size ≤ T.length := by
      rcases h with h | ⟨h, _⟩
      · exact h
      · omega
    obtain ⟨c, rest, rfl⟩ : ∃ c rest, T = c :: rest := by
      cases T with
      | nil => simp at hk
      | cons c rest => exact ⟨c, rest, rfl⟩
    have hlt : size < (c :: rest).length := by simp at hk ⊢; omega
    have hnext := next_produce_regular c rest size hs hlt
    show iterate (str_windows (c :: rest) size) (k + 1) = _
    simp only [iterate, hnext]
    rw [ih rest (Or.inl (by simp at hk; omega))]
    rw [stateAfter_cons, List.drop_succ_cons]

theorem iterate_const_none (it : StrWindowsIter)
    (h : it.next = .ok (none, it)) : ∀ m, iterate it m = .ok (none, it) := by
  intro m
  induction m with
  | zero => exact h
  | succ m ih => simp only [iterate, h]; exact ih

/-- Composing runs: once call `k` has answered, the run continues from the
state it left behind. -/
theorem iterate_shift :
    ∀ (k : Nat) (it : StrWindowsIter) (o : Option (List Nat))
      (st : StrWindowsIter), iterate it k = .ok (o, st) →
      ∀ m, iterate it (m + 1 + k) = iterate st m := by
  intro k
  induction k with
  | zero =>
    intro it o st h m
    have h0 : it.next = .ok (o, st) := h
    show iterate it (m + 1) = _
    simp only [iterate, h0]
  | succ k ih =>
    intro it o st h m
    cases hn : it.next with
    | error e =>
      simp only [iterate, hn] at h
      exact Except.noConfusion h
    | ok p =>
      obtain ⟨o1, it1⟩ := p
      simp only [iterate, hn] at h
      show iterate it (m + 1 + k + 1) = _
      simp only [iterate, hn]
      exact ih it1 o st h m

/-- After the last produced window the run answers `none` forever, from the
fixed exhausted state. -/
theorem iterate_exhaustion (T : List Nat) (size k : Nat) (hs : size ≠ 0)
    (hT : T ≠ []) (hk : T.length - size < k) :
    iterate (str_windows T size) k =
      .ok (none, ⟨T.drop (T.length - size + 1),
                  utf8Len (T.drop (T.length - size + 1)) + 1, size⟩) := by
  set k0 := T.length - size with hk0
  set F : StrWindowsIter :=
    ⟨T.drop (k0 + 1), utf8Len (T.drop (k0 + 1)) + 1, size⟩ with hF
  have hcond : k0 + size ≤ T.length ∨ (k0 = 0 ∧ T ≠ []) := by
    rcases le_or_lt size T.length with hle | hlt
    · exact Or.inl (by omega)
    · exact Or.inr ⟨by omega, hT⟩
  have hprod : iterate (str_windows T size) k0 =
      .ok (some ((T.drop k0).take size), F) := by
    rw [iterate_produce size hs k0 T hcond, stateAfter, if_neg ?c]
    case c =>
      have h1 : 0 < T.length := List.length_pos.mpr hT
      omega
  have hFnext : F.next = .ok (none, F) :=
    next_exhausted F hs (Nat.lt_succ_self _)
  obtain ⟨m, rfl⟩ : ∃ m, k = m + 1 + k0 := ⟨k - k0 - 1, by omega⟩
  rw [iterate_shift k0 _ _ _ hprod m, iterate_const_none F hFnext m]

/-- Inversion: if call `k` produced a window `w`, then `w` is the `size`
scalar values starting at scalar value `k` (clipped to the end of the
string), and either the window fits entirely (`k + size ≤ length`) or it is
the clipped window of call 0. -/
theorem produce_inversion (T : List Nat) (size k : Nat) (w : List Nat)
    (st : StrWindowsIter) (hs : size ≠ 0)
    (h : iterate (str_windows T size) k = .ok (some w, st)) :
    w = (T.drop k).take size ∧ (k + size ≤ T.length ∨ k = 0) ∧ T ≠ [] := by
  rcases eq_or_ne T [] with rfl | hT
  · rw [iterate_error size hs k] at h; cases h
  rcases Nat.eq_zero_or_pos k with rfl | hkpos
  · rw [iterate_produce size hs 0 T (Or.inr ⟨rfl, hT⟩)] at h
    simp only [Except.ok.injEq, Prod.mk.injEq, Option.some.injEq] at h
    exact ⟨h.1.symm, Or.inr rfl, hT⟩
  · by_cases hk2 : T.length - size < k
    · rw [iterate_exhaustion T size k hs hT hk2] at h
      simp at h
    · push_neg at hk2
      have hlen : 0 < T.length := List.length_pos.mpr hT
      have hcond : k + size ≤ T.length := by
        rcases le_or_lt size T.length with hle | hlt
        · omega
        · omega
      rw [iterate_produce size hs k T (Or.inl hcond)] at h
      simp only [Except.ok.injEq, Prod.mk.injEq, Option.some.injEq] at h
      exact ⟨h.1.symm, Or.inl hcond, hT⟩

/-! ### Further inversion helpers -/

theorem iterate_ok_next :
    ∀ (k : Nat) (it : StrWindowsIter) (o : Option (List Nat))
      (st : StrWindowsIter), iterate it k = .ok (o, st) →
      ∃ x : StrWindowsIter, x.next = .ok (o, st) := by
  intro k
  induction k with
  | zero => intro it o st h; exact ⟨it, h⟩
  | succ k ih =>
    intro it o st h
    cases hn : it.next with
    | error e =>
      simp only [iterate, hn] at h
      exact Except.noConfusion h
    | ok p =>
      obtain ⟨o1, it1⟩ := p
      simp only [iterate, hn] at h
      exact ih it1 o st h

/-- A call answers `none` only from the guard branch, which hands the state
back unchanged. -/
theorem next_none_inv (it st : StrWindowsIter)
    (h : it.next = .ok (none, st)) :
    st = it ∧ it.size ≠ 0 ∧ utf8Len it.inner < it.end_ := by
  by_cases hz : it.size = 0
  · unfold StrWindowsIter.next at h
    rw [if_pos hz] at h
    simp at h
  · by_cases hg : utf8Len it.inner < it.end_
    · rw [next_exhausted it hz hg] at h
      simp only [Except.ok.injEq, Prod.mk.injEq] at h
      exact ⟨h.2.symm, hz, hg⟩
    · exfalso
      have hg2 : ¬ it.end_ > utf8Len it.inner := hg
      unfold StrWindowsIter.next at h
      rw [if_neg hz, if_neg hg2] at h
      cases h1 : takeBytes? it.inner it.end_ with
      | none =>
        simp only [h1] at h
        exact Except.noConfusion h
      | some win =>
        simp only [h1] at h
        cases h2 : dropBytes? it.inner it.end_ with
        | none =>
          simp only [h2] at h
          exact Except.noConfusion h
        | some ae =>
          simp only [h2] at h
          cases h3 : dropBytes? it.inner (next_indice it.inner) with
          | none =>
            simp only [h3] at h
            exact Except.noConfusion h
          | some ni =>
            simp only [h3] at h
            simp at h

/-! ### The claims -/

/-- C1: the window-count claim fails on the code.  With `T = "ab"`
(scalar values `[97, 98]`) and `size = 3` the claim demands
`max(2 - 3 + 1, 0) = 0` windows, but call 0 produces the window `"ab"`
before call 1 reports exhaustion: one window, not zero. -/
theorem window_count_at_oversize :
    iterate (str_windows [97, 98] 3) 0 = .ok (some [97, 98], ⟨[98], 2, 3⟩) ∧
    iterate (str_windows [97, 98] 3) 1 = .ok (none, ⟨[98], 2, 3⟩) ∧
    max ((([97, 98] : List Nat).length : Int) - 3 + 1) 0 = 0 :=
  ⟨rfl, rfl, by decide⟩

/-- C2: the no-panic claim fails on the code.  On the empty string with
`size = 1` the very first `next` call evaluates the out-of-bounds slice
`self.inner[1..]` of the empty remaining view and panics. -/
theorem next_panics_on_empty : (str_windows [] 1).next = .error () := rfl

/-- C3: the window-length claim fails on the code.  With `T = "ab"` and
`size = 3` the produced window holds 2 scalar values, not 3. -/
theorem window_not_size_scalars :
    iterate (str_windows [97, 98] 3) 0 = .ok (some [97, 98], ⟨[98], 2, 3⟩) ∧
    ([97, 98] : List Nat).length ≠ 3 :=
  ⟨rfl, by decide⟩

/-- C4: the round-trip claim fails on the code.  With `T = "ab"` and
`size = 3` the windows are exactly `["ab"]`, whose first scalar values
concatenate to `"a"`, while the claim demands the empty sequence
(`T` with its last `size - 1 = 2` scalar values removed). -/
theorem round_trip_at_oversize :
    iterate (str_windows [97, 98] 3) 0 = .ok (some [97, 98], ⟨[98], 2, 3⟩) ∧
    iterate (str_windows [97, 98] 3) 1 = .ok (none, ⟨[98], 2, 3⟩) ∧
    List.flatten (([[97, 98]] : List (List Nat)).map (List.take 1)) = [97] ∧
    [97] ≠ ([97, 98] : List Nat).take
      (([97, 98] : List Nat).length - (3 - 1)) :=
  ⟨rfl, rfl, by decide, by decide⟩

/-- C5: sliding-by-one invariant.  Whenever windows `i` and `i + 1` are
both produced, window `i + 1` is window `i` with its first scalar value
removed and scalar value number `i + size` of the buffer appended. -/
theorem sliding_window (T : List Nat) (size i : Nat) (w w' : List Nat)
    (st st' : StrWindowsIter) (hV : ValidStr T) (hs : 0 < size)
    (h1 : iterate (str_windows T size) i = .ok (some w, st))
    (h2 : iterate (str_windows T size) (i + 1) = .ok (some w', st')) :
    ∃ c, T[i + size]? = some c ∧ w' = w.drop 1 ++ [c] := by
  obtain ⟨hw, -, -⟩ := produce_inversion T size i w st (by omega) h1
  obtain ⟨hw', hcond', -⟩ := produce_inversion T size (i + 1) w' st' (by omega) h2
  have hfit : i + 1 + size ≤ T.length := by
    rcases hcond' with hc | hc
    · exact hc
    · omega
  obtain ⟨s, rfl⟩ : ∃ s, size = s + 1 := ⟨size - 1, by omega⟩
  have hi : i < T.length := by omega
  have hs1 : s < (T.drop (i + 1)).length := by
    rw [List.length_drop]; omega
  have hidx : i + 1 + s < T.length := by omega
  have hgd : (T.drop (i + 1))[s] = T[i + 1 + s] := List.getElem_drop ..
  refine ⟨T[i + 1 + s], ?_, ?_⟩
  · have he : i + (s + 1) = i + 1 + s := by omega
    rw [he, List.getElem?_eq_getElem hidx]
  · have hdropi : T.drop i = T[i] :: T.drop (i + 1) :=
      List.drop_eq_getElem_cons hi
    have hw2 : w = T[i] :: (T.drop (i + 1)).take s := by
      rw [hw, hdropi, List.take_succ_cons]
    have hw'2 : w' = (T.drop (i + 1)).take s ++ [T[i + 1 + s]] := by
      rw [hw', List.take_succ, List.getElem?_eq_getElem hs1, hgd]
      rfl
    rw [hw2, hw'2]
    rfl

theorem sliding_window_w :
    ∃ c, ([97, 98, 99] : List Nat)[0 + 1]? = some c ∧
      [98] = ([97] : List Nat).drop 1 ++ [c] :=
  sliding_window [97, 98, 99] 1 0 [97] [98] ⟨[98, 99], 1, 1⟩ ⟨[99], 1, 1⟩
    (by decide) (by decide) rfl rfl

/-- C6: the iterator is fused.  Once call `k` of a run returns `none`, the
exhausted step has not mutated the cursor state (`next` on the resulting
state returns `none` and the identical state), and every later call of the
run returns `none` with that same state. -/
theorem fused_exhaustion (T : List Nat) (size k : Nat) (st : StrWindowsIter)
    (hV : ValidStr T) (hs : 0 < size)
    (h : iterate (str_windows T size) k = .ok (none, st)) :
    st.next = .ok (none, st) ∧
    ∀ j, k < j → iterate (str_windows T size) j = .ok (none, st) := by
  have hstep : st.next = .ok (none, st) := by
    obtain ⟨x, hx⟩ := iterate_ok_next k _ _ _ h
    obtain ⟨rfl, -, -⟩ := next_none_inv x st hx
    exact hx
  refine ⟨hstep, ?_⟩
  intro j hj
  obtain ⟨m, rfl⟩ : ∃ m, j = m + 1 + k := ⟨j - k - 1, by omega⟩
  rw [iterate_shift k _ _ _ h m]
  exact iterate_const_none st hstep m

theorem fused_exhaustion_w :
    (⟨[], 1, 1⟩ : StrWindowsIter).next = .ok (none, ⟨[], 1, 1⟩) ∧
    ∀ j, 1 < j → iterate (str_windows [97] 1) j = .ok (none, ⟨[], 1, 1⟩) :=
  fused_exhaustion [97] 1 1 ⟨[], 1, 1⟩ (by decide) (by decide) rfl

/-- C7: with `size = 0` every call of the run (call number `n`, for every
`n`) returns the empty window and leaves the state untouched; the iterator
never signals exhaustion. -/
theorem size_zero_forever (T : List Nat) (hV : ValidStr T) (n : Nat) :
    iterate (str_windows T 0) n = .ok (some [], str_windows T 0) := by
  have h0 : (str_windows T 0).next = .ok (some [], str_windows T 0) := by
    simp [StrWindowsIter.next, str_windows]
  induction n with
  | zero => exact h0
  | succ n ih =>
    simp only [iterate, h0]
    exact ih

theorem size_zero_forever_w :
    ValidStr [97] ∧
    iterate (str_windows [97] 0) 5 = .ok (some [], str_windows [97] 0) :=
  ⟨by decide, size_zero_forever [97] (by decide) 5⟩

/-- C8: `size_hint` is `(usize::MAX, None)` for `size = 0`; for positive
`size` it is `(min_chars - (size - 1), Some (max_chars - (size - 1)))` in
truncated subtraction, where `(min_chars, max_chars) = Chars::size_hint`
of the current view bounds its scalar-value count from below and above;
and on the fresh iterator over the 5-scalar ASCII buffer `"abcde"` the
hints for sizes 1, 5, 6, 7 are `(2, Some 5)`, `(0, Some 1)`, `(0, Some 0)`,
`(0, Some 0)`. -/
theorem size_hint_formula :
    (∀ T : List Nat, ValidStr T →
      (str_windows T 0).size_hint = (usizeMax, none)) ∧
    (∀ st : StrWindowsIter, 0 < st.size →
      st.size_hint = ((chars_size_hint st.inner).1 - (st.size - 1),
        some (utf8Len st.inner - (st.size - 1))) ∧
      (chars_size_hint st.inner).1 ≤ st.inner.length ∧
      st.inner.length ≤ utf8Len st.inner) ∧
    (str_windows [97, 98, 99, 100, 101] 1).size_hint = (2, some 5) ∧
    (str_windows [97, 98, 99, 100, 101] 5).size_hint = (0, some 1) ∧
    (str_windows [97, 98, 99, 100, 101] 6).size_hint = (0, some 0) ∧
    (str_windows [97, 98, 99, 100, 101] 7).size_hint = (0, some 0) := by
  refine ⟨?_, ?_, by decide, by decide, by decide, by decide⟩
  · intro T hV
    simp [StrWindowsIter.size_hint, str_windows]
  · intro st hpos
    refine ⟨?_, ?_, length_le_utf8Len _⟩
    · unfold StrWindowsIter.size_hint
      rw [if_neg (by omega)]
      rfl
    · have h4 := utf8Len_le_four_mul st.inner
      show (utf8Len st.inner + 3) / 4 ≤ st.inner.length
      omega

theorem size_hint_formula_w :
    ValidStr [] ∧ (str_windows [] 0).size_hint = (usizeMax, none) :=
  ⟨by decide, size_hint_formula.1 [] (by decide)⟩

/-- C9: the hint-soundness claim fails on the code.  On the fresh iterator
over `"ab"` with `size = 3` the hint's upper bound is `Some 0`, yet the
iterator still produces one window before exhausting. -/
theorem size_hint_upper_understates :
    (str_windows [97, 98] 3).size_hint = (0, some 0) ∧
    iterate (str_windows [97, 98] 3) 0 = .ok (some [97, 98], ⟨[98], 2, 3⟩) ∧
    iterate (str_windows [97, 98] 3) 1 = .ok (none, ⟨[98], 2, 3⟩) :=
  ⟨by decide, rfl, rfl⟩

/-- C10: every produced window is a contiguous run of whole scalar values
of the original string, starting right after its first `k` scalar values;
and when the next window is also produced, its starting byte offset in the
original buffer is strictly larger. -/
theorem windows_contiguous (T : List Nat) (size : Nat) (hV : ValidStr T)
    (hs : 0 < size) (k : Nat) (w : List Nat) (st : StrWindowsIter)
    (h : iterate (str_windows T size) k = .ok (some w, st)) :
    (∃ post, T = T.take k ++ (w ++ post)) ∧
    (∀ w' st', iterate (str_windows T size) (k + 1) = .ok (some w', st') →
      utf8Len (T.take k) < utf8Len (T.take (k + 1))) := by
  obtain ⟨hw, -, -⟩ := produce_inversion T size k w st (by omega) h
  constructor
  · refine ⟨(T.drop k).drop size, ?_⟩
    rw [hw, List.take_append_drop, List.take_append_drop]
  · intro w' st' h'
    obtain ⟨-, hcond', -⟩ := produce_inversion T size (k + 1) w' st' (by omega) h'
    have hk : k < T.length := by
      rcases hcond' with hc | hc
      · omega
      · omega
    rw [utf8Len_take_succ T k hk]
    have := utf8Width_pos T[k]
    omega

theorem windows_contiguous_w :
    (∃ post, ([97, 98, 99] : List Nat) =
      ([97, 98, 99] : List Nat).take 0 ++ ([97] ++ post)) ∧
    (∀ w' st', iterate (str_windows [97, 98, 99] 1) (0 + 1) =
        .ok (some w', st') →
      utf8Len (([97, 98, 99] : List Nat).take 0) <
        utf8Len (([97, 98, 99] : List Nat).take (0 + 1))) :=
  windows_contiguous [97, 98, 99] 1 (by decide) (by decide) 0 [97]
    ⟨[98, 99], 1, 1⟩ rfl

end StrWindows
